import Mathlib

/-!
Verification of the BitShare P2P file-sharing tool (Go).

Each namespace embeds one part of the Go source as Lean definitions and
the later sections prove the spec claims about them:
* `Transfer` — chunked-transfer manifest construction (`SendFileChunked`,
  `internal/transfer`).
* `Mesh` — peer lookup, connection-strategy fallback and route choice
  (`internal/mesh/coordinator.go` and the `findBestRoute` helper of
  `main`).
* `P2P` — TCP framing (`packMessage` / `handlePeer` in
  `internal/p2p/tcp.go`) and discovery aggregation
  (`ScanForPeersWithOptions` in `internal/p2p`).

Go `int64` arithmetic is modelled as `Int`, with an explicit wrap at
2^63 where an overflow is reachable; Go's truncated division is
`Int.tdiv`; a 64-bit platform is assumed (Go `int` = `int64`).
Fields of time type (`time.Time`, `time.Duration`) and fields derived
from file contents (chunk checksums) are omitted: no claim mentions
them.
-/

namespace Transfer

/-- Two's-complement wrap of an integer into the `int64` range
`[-2^63, 2^63)`; applied where Go `int64` arithmetic can overflow. -/
def wrap64 (x : Int) : Int :=
  (x + 2 ^ 63) % 2 ^ 64 - 2 ^ 63

/-- One entry of `FileTransferInfo.Chunks` (Go struct `ChunkInfo`).
The `Checksum` field is omitted: it hashes the file's bytes, which no
claim mentions. -/
structure ChunkInfo where
  index : Int
  size : Int
  offset : Int
  completed : Bool
  deriving Repr, DecidableEq

/-- The manifest part of the Go struct `FileTransferInfo`: the fields
`SendFileChunked` computes from `FileSize` and `ChunkSize` alone
(identifiers, timestamps and status strings are omitted). -/
structure FileTransferInfo where
  fileSize : Int
  chunkSize : Int
  totalChunks : Int
  chunks : List ChunkInfo
  deriving Repr, DecidableEq

/-- The body of the chunk-preparation loop of `SendFileChunked`:
`offset := int64(i) * chunkSize; size := chunkSize;
if offset+size > fileSize { size = fileSize - offset }`.
Whenever the loop runs at all, `totalChunks` was computed without
overflow, and then every quantity here stays inside `int64`
(`offset + size ≤ totalChunks·chunkSize < fileSize + chunkSize ≤ 2^63`),
so no wrap is needed inside the loop. -/
def chunkFor (fileSize chunkSize : Int) (i : Nat) : ChunkInfo :=
  { index := i
    size :=
      if (i : Int) * chunkSize + chunkSize > fileSize
      then fileSize - (i : Int) * chunkSize
      else chunkSize
    offset := (i : Int) * chunkSize
    completed := false }

/-- The count `totalChunks := int((fileSize + chunkSize - 1) / chunkSize)` from
`SendFileChunked`.  The sum is `int64` addition, hence wrapped; the
division is Go's truncated division; on a 64-bit platform the final
`int` conversion is the identity. -/
def totalChunksGo (fileSize chunkSize : Int) : Int :=
  Int.tdiv (wrap64 (fileSize + chunkSize - 1)) chunkSize

/-- The manifest `SendFileChunked` builds before sending: the chunk
count, then one `ChunkInfo` per index `0 ≤ i < totalChunks`.
`none` models the panic of `make([]ChunkInfo, totalChunks)` on a
negative count. -/
def sendFileChunkedManifest (fileSize chunkSize : Int) : Option FileTransferInfo :=
  let totalChunks := totalChunksGo fileSize chunkSize
  if totalChunks < 0 then none
  else some
    { fileSize := fileSize
      chunkSize := chunkSize
      totalChunks := totalChunks
      chunks := (List.range totalChunks.toNat).map (chunkFor fileSize chunkSize) }

/-- Ceiling of `f / c` for `c > 0`, written from the spec's
`ceil(FileSize/ChunkSize)` (floor of the negation, negated); used to
compare the code's formula with the spec's. -/
def specCeilDiv (f c : Int) : Int :=
  -((-f) / c)

end Transfer

namespace Mesh

/-- Go struct `Route` of `internal/mesh/coordinator.go` (a path to a
peer). -/
structure Route where
  destinationID : String
  nextHop : String
  hopCount : Int
  quality : Int
  deriving Repr, DecidableEq

/-- Go struct `Peer` of `internal/mesh/coordinator.go`; the `LastSeen`
timestamp is omitted. -/
structure Peer where
  id : String
  name : String
  address : String
  protocol : String
  isOnline : Bool
  signalStrength : Int
  connectionQuality : String
  routes : List Route
  deriving Repr, DecidableEq

/-- Go `strings.EqualFold` on the identifiers used here: equality up to
case folding, modelled as equality of the lowered strings. -/
def eqFold (a b : String) : Bool :=
  a.toLower == b.toLower

/-- The two failure modes of `FindPeerByIdOrName`:
`"multiple peers found with name ..."` and
`"no peer found with ID or name ..."`. -/
inductive FindError where
  | ambiguousPeer (query : String)
  | peerNotFound (query : String)
  deriving Repr, DecidableEq

/-- Function `FindPeerByIdOrName` of `internal/mesh/coordinator.go`, with the
`knownPeers` map modelled as an association list of `(ID, Peer)` pairs
(keys pairwise distinct, list order standing for one iteration order of
the Go map).  Stages, exactly as in the source: (1) exact map lookup on
ID; (2) first `strings.EqualFold` match on ID; (3) the name loop, which
returns the first exact name match immediately and otherwise counts the
case-insensitive name matches, keeping the matched peer only when the
count is exactly 1.  The `isRunning` guard is outside the claims and is
omitted. -/
def findPeerByIdOrName (peers : List (String × Peer)) (q : String) :
    Except FindError Peer :=
  match peers.lookup q with
  | some p => .ok p
  | none =>
    match peers.find? fun pr => eqFold pr.1 q with
    | some pr => .ok pr.2
    | none =>
      match peers.find? fun pr => pr.2.name == q with
      | some pr => .ok pr.2
      | none =>
        match peers.filter fun pr => eqFold pr.2.name q with
        | [] => .error (.peerNotFound q)
        | [pr] => .ok pr.2
        | _ => .error (.ambiguousPeer q)

/-- The error `ConnectToPeer` surfaces when every attempted strategy
fails: either `"failed to connect via relay: ..."` wrapping the relay
error, or `"failed to connect: direct connection error: ..."` wrapping
the direct error.  No constructor wraps the WiFi Direct error — the
source discards `wifiErr` when the WiFi Direct attempt fails. -/
inductive ConnError where
  | relayError (msg : String)
  | directError (msg : String)
  deriving Repr, DecidableEq

/-- Outcome of `ConnectToPeer`'s strategy cascade. -/
inductive ConnResult where
  | connectedDirect
  | connectedWifiDirect
  | connectedRelay
  | failed (e : ConnError)
  deriving Repr, DecidableEq

/-- The strategy cascade of `ConnectToPeer`
(`internal/mesh/coordinator.go`), after the peer has been resolved.
The outcomes of the three helpers (`connectDirectly`,
`connectViaWiFiDirect`, `connectViaRelay`) are inputs: `none` = success,
`some msg` = failure with that error.  `iso` is
`connectionInfo.ClientIsolation`; `wifiEnabled` is
`meshConfig.EnableWiFiDirect`; `relayEnabled` is
`meshConfig.EnableRelay`. -/
def connectToPeer (iso wifiEnabled relayEnabled : Bool)
    (directRes wifiRes relayRes : Option String) : ConnResult :=
  match directRes with
  | none => .connectedDirect
  | some directErr =>
    let afterWifi : ConnResult :=
      if relayEnabled then
        match relayRes with
        | none => .connectedRelay
        | some relayErr => .failed (.relayError relayErr)
      else .failed (.directError directErr)
    if iso && wifiEnabled then
      match wifiRes with
      | none => .connectedWifiDirect
      | some _ => afterWifi
    else afterWifi

end Mesh

/-- Function `findBestRoute` of `main` (the CLI): `routes[0]` is read first, so
the empty list is a panic, modelled as `none`.  Then the first route
with `HopCount == 1` is returned if one exists; otherwise a second pass
keeps the first route whose `Quality` strictly exceeds the current
best's, starting from `routes[0]`. -/
def findBestRoute (routes : List Mesh.Route) : Option Mesh.Route :=
  match routes with
  | [] => none
  | r0 :: _ =>
    match routes.find? fun r => r.hopCount == 1 with
    | some r => some r
    | none =>
      some (routes.foldl (fun best r => if r.quality > best.quality then r else best) r0)

namespace P2P

/-- The constant `maxMessageSize` of `TCPManager.handlePeer`: 100 MiB. -/
def maxMessageSize : Nat := 100 * 1024 * 1024

/-- Big-endian 4-byte encoding of a `uint32` value, as produced by
`binary.BigEndian.PutUint32`. -/
def be32 (n : Nat) : List Nat :=
  [n / 2 ^ 24 % 2 ^ 8, n / 2 ^ 16 % 2 ^ 8, n / 2 ^ 8 % 2 ^ 8, n % 2 ^ 8]

/-- Decoding `binary.BigEndian.Uint32` of the four length bytes read by
`handlePeer` (`int(...)` on a 64-bit platform cannot be negative). -/
def beLen (b0 b1 b2 b3 : Nat) : Nat :=
  ((b0 * 2 ^ 8 + b1) * 2 ^ 8 + b2) * 2 ^ 8 + b3

/-- Function `packMessage` of `internal/p2p/tcp.go`: a 4-byte big-endian
`uint32(len(data))` prefix followed by the payload. -/
def packMessage (data : List Nat) : List Nat :=
  be32 (data.length % 2 ^ 32) ++ data

/-- Why `handlePeer`'s read loop stopped. -/
inductive ReadEnd where
  | eof        -- `io.ReadFull` on the length prefix failed (EOF / read error)
  | oversize   -- declared length exceeded `maxMessageSize`: connection closed
  | shortRead  -- `io.ReadFull` on the body failed (stream too short)
  deriving Repr, DecidableEq

/-- The read loop of `TCPManager.handlePeer` over a byte stream:
read a 4-byte big-endian length; a declared length `≤ 0` is logged and
skipped (`continue`); a declared length `> maxMessageSize` closes the
connection (`break`); otherwise the body is read and handed to
`processMessage`, which never reports a fatal error (`isFatalError`
returns `false`), so the loop continues.  Returns the processed
payloads in order and the reason the loop ended.  Deadlines and logging
are untimed/unmodelled. -/
def runPeerLoop (stream : List Nat) : List (List Nat) × ReadEnd :=
  match hs : stream with
  | b0 :: b1 :: b2 :: b3 :: rest =>
    let len := beLen b0 b1 b2 b3
    if len = 0 then runPeerLoop rest
    else if len > maxMessageSize then ([], .oversize)
    else if h : rest.length < len then ([], .shortRead)
    else
      let out := runPeerLoop (rest.drop len)
      (rest.take len :: out.1, out.2)
  | _ => ([], .eof)
termination_by stream.length
decreasing_by
  · simp [hs]
    omega
  · simp [hs, List.length_drop]
    omega

/-- Go struct `PeerInfo` of `internal/p2p` (a discovered peer); the
`LastSeen` timestamp is omitted. -/
structure PeerInfo where
  id : String
  name : String
  address : String
  protocol : String
  signalStrength : Int
  capabilities : List String
  deriving Repr, DecidableEq

/-- The three per-protocol scan tasks launched by
`ScanForPeersWithOptions`. -/
inductive Transport where
  | wifiDirect
  | bluetooth
  | tcp
  deriving Repr, DecidableEq

/-- The result slice each scan task delivers on `resultsCh`
(`scanWifiDirect`, `scanBluetooth`, `scanTCP` of
`internal/p2p/bluetooth.go`). -/
def scanResult : Transport → List PeerInfo
  | .wifiDirect =>
    [{ id := "wfd-1234", name := "Laptop-WFD", address := "192.168.49.1",
       protocol := "wifi-direct", signalStrength := 80,
       capabilities := ["transfer", "mesh"] }]
  | .bluetooth =>
    [{ id := "bt-5678", name := "Phone-BT", address := "00:11:22:33:44:55",
       protocol := "bluetooth", signalStrength := 60,
       capabilities := ["transfer"] }]
  | .tcp =>
    [{ id := "tcp-9012", name := "Desktop-TCP", address := "192.168.1.100",
       protocol := "tcp", signalStrength := 100,
       capabilities := ["transfer", "mesh", "relay"] }]

/-- The live results collected by the aggregator's `select` loop: each
launched task's slice is appended on completion, so the collected list
is the concatenation of the tasks' slices in completion order
(`arrivals`). -/
def liveResults (arrivals : List Transport) : List PeerInfo :=
  (arrivals.map scanResult).flatten

/-- The cache-inclusion loop of `ScanForPeersWithOptions`: each cached
peer is appended to the results unless some entry already collected
(live, or a cached one appended earlier) carries the same ID; an
appended cached entry gets `SignalStrength = 0`.

Modelled from the spec for the cache contents: `getCachedPeers` is a
placeholder in the source ("Return previously discovered but currently
offline peers" — it returns an empty slice), so the cache is a
parameter here. -/
def includeCached (results : List PeerInfo) : List PeerInfo → List PeerInfo
  | [] => results
  | p :: rest =>
    if results.any fun e => e.id == p.id then includeCached results rest
    else includeCached (results ++ [{ p with signalStrength := 0 }]) rest

/-- The ID each placeholder scanner reports. -/
def transportId : Transport → String
  | .wifiDirect => "wfd-1234"
  | .bluetooth => "bt-5678"
  | .tcp => "tcp-9012"

/-- Function `ScanForPeersWithOptions` after the live-collection loop, for runs
that do not hit the scan timeout: the live results in completion order,
with the cached peers merged in when `IncludeCache` is set. -/
def scanMerged (arrivals : List Transport) (cached : List PeerInfo)
    (includeCache : Bool) : List PeerInfo :=
  if includeCache then includeCached (liveResults arrivals) cached
  else liveResults arrivals

end P2P

/-! ### Concrete inputs used by examples and witnesses -/

/-- The spec's route example `{Hop:3,Q:90}`. -/
def routeHop3 : Mesh.Route :=
  { destinationID := "peer-x", nextHop := "via-a", hopCount := 3, quality := 90 }

/-- The spec's route example `{Hop:1,Q:40}`. -/
def routeHop1 : Mesh.Route :=
  { destinationID := "peer-x", nextHop := "via-b", hopCount := 1, quality := 40 }

/-- The spec's route example `{Hop:2,Q:95}`. -/
def routeHop2 : Mesh.Route :=
  { destinationID := "peer-x", nextHop := "via-c", hopCount := 2, quality := 95 }

/-- A demo peer whose ID is the query of the witness below. -/
def peerAlice : Mesh.Peer :=
  { id := "alice", name := "Alison", address := "10.0.0.2", protocol := "tcp",
    isOnline := true, signalStrength := 70, connectionQuality := "good",
    routes := [] }

/-- A demo peer whose name collides with another peer's ID. -/
def peerBobNamedAlice : Mesh.Peer :=
  { id := "bob", name := "alice", address := "10.0.0.3", protocol := "tcp",
    isOnline := true, signalStrength := 40, connectionQuality := "fair",
    routes := [] }

/-- A demo peer directory: peer `bob` is named `"alice"`, which is also
peer `alice`'s ID. -/
def demoDirectory : List (String × Mesh.Peer) :=
  [("bob", peerBobNamedAlice), ("alice", peerAlice)]

/-- A previously seen, currently unreachable peer used by the witness
below (its recorded signal strength is nonzero). -/
def cachedPhone : P2P.PeerInfo :=
  { id := "bt-0042", name := "Old-Phone", address := "00:11:22:33:44:66",
    protocol := "bluetooth", signalStrength := 55, capabilities := ["transfer"] }

/-! ## Chunked-transfer manifest (claims C1, C2) -/

namespace Transfer

lemma wrap64_eq_self {x : Int} (h0 : 0 ≤ x) (h1 : x < 2 ^ 63) : wrap64 x = x := by
  unfold wrap64
  omega

lemma ceil_div_eq {f c : Int} (hc : 0 < c) : (f + c - 1) / c = specCeilDiv f c := by
  unfold specCeilDiv
  have h := Int.ediv_add_emod (-f) c
  have hr0 : 0 ≤ (-f) % c := Int.emod_nonneg _ (ne_of_gt hc)
  have hrc : (-f) % c < c := Int.emod_lt_of_pos _ hc
  set q := (-f) / c with hq
  set r := (-f) % c with hr
  have hf : f + c - 1 = (c - 1 - r) + (-q) * c := by linear_combination h
  rw [hf, Int.add_mul_ediv_right _ _ (ne_of_gt hc),
    Int.ediv_eq_zero_of_lt (by omega) (by omega)]
  omega

lemma specCeilDiv_nonneg {f c : Int} (hf : 0 ≤ f) (hc : 0 < c) :
    0 ≤ specCeilDiv f c := by
  rw [← ceil_div_eq hc]
  exact Int.ediv_nonneg (by omega) (by omega)

lemma specCeilDiv_bounds {f c : Int} (hf : 0 ≤ f) (hc : 0 < c) :
    f ≤ c * specCeilDiv f c ∧ c * specCeilDiv f c ≤ f + c - 1 := by
  rw [← ceil_div_eq hc]
  have h := Int.ediv_add_emod (f + c - 1) c
  have hr0 : 0 ≤ (f + c - 1) % c := Int.emod_nonneg _ (ne_of_gt hc)
  have hrc : (f + c - 1) % c < c := Int.emod_lt_of_pos _ hc
  set y := c * ((f + c - 1) / c) with hy
  omega

lemma totalChunksGo_eq {f c : Int} (hf : 0 ≤ f) (hc : 0 < c)
    (hlt : f + c - 1 < 2 ^ 63) :
    totalChunksGo f c = specCeilDiv f c := by
  unfold totalChunksGo
  rw [wrap64_eq_self (by omega) hlt, Int.tdiv_eq_ediv (by omega) (le_of_lt hc),
    ceil_div_eq hc]

lemma sum_chunk_sizes (f c : Int) (hf : 0 ≤ f) (hc : 0 < c) :
    ∀ n : Nat, (n : Int) * c < f + c →
      (((List.range n).map fun i => (chunkFor f c i).size).sum)
        = min f ((n : Int) * c) := by
  intro n
  induction n with
  | zero => intro _; simp [min_eq_right hf]
  | succ n ih =>
    intro hlt
    have hcast : ((n + 1 : Nat) : Int) * c = (n : Int) * c + c := by push_cast; ring
    rw [hcast] at hlt
    have hnc : (n : Int) * c < f := by
      set X := (n : Int) * c with hX
      omega
    rw [List.range_succ, List.map_append, List.sum_append,
      ih (by set X := (n : Int) * c with hX; omega)]
    simp only [chunkFor, List.map_cons, List.map_nil, List.sum_cons, List.sum_nil]
    rw [hcast]
    by_cases hbig : (n : Int) * c + c > f
    · rw [if_pos hbig]
      set X := (n : Int) * c with hX
      omega
    · rw [if_neg hbig]
      set X := (n : Int) * c with hX
      omega

lemma map_range_getLast (g : Nat → ChunkInfo) (n : Nat) (hn : 0 < n) :
    ((List.range n).map g).getLast? = some (g (n - 1)) := by
  obtain ⟨m, rfl⟩ := Nat.exists_eq_succ_of_ne_zero (Nat.pos_iff_ne_zero.mp hn)
  rw [List.range_succ, List.map_append]
  simp

end Transfer

/-- C1 (amended): for `0 ≤ FileSize`, `0 < ChunkSize`, and
`FileSize + ChunkSize - 1 < 2^63` (no `int64` overflow in the chunk
count), the manifest built by `SendFileChunked` satisfies
`TotalChunks = ceil(FileSize/ChunkSize)`; every chunk `i` has
`Offset = i·ChunkSize` and `Offset + Size ≤ FileSize`; the chunk sizes
sum to `FileSize`; the final chunk's size is
`FileSize − (TotalChunks−1)·ChunkSize`; and `FileSize = 0` gives
`TotalChunks = 0`. -/
theorem sendFileChunked_manifest_correct (fileSize chunkSize : Int)
    (hf : 0 ≤ fileSize) (hc : 0 < chunkSize)
    (hno : fileSize + chunkSize - 1 < 2 ^ 63) :
    ∃ m, Transfer.sendFileChunkedManifest fileSize chunkSize = some m ∧
      m.totalChunks = Transfer.specCeilDiv fileSize chunkSize ∧
      m.chunks.length = m.totalChunks.toNat ∧
      (∀ i : Nat, ∀ hi : i < m.chunks.length,
        m.chunks[i].offset = (i : Int) * chunkSize ∧
        m.chunks[i].offset + m.chunks[i].size ≤ fileSize) ∧
      (m.chunks.map Transfer.ChunkInfo.size).sum = fileSize ∧
      (0 < m.totalChunks →
        m.chunks.getLast?.map Transfer.ChunkInfo.size
          = some (fileSize - (m.totalChunks - 1) * chunkSize)) ∧
      (fileSize = 0 → m.totalChunks = 0) := by
  have htc := Transfer.totalChunksGo_eq hf hc hno
  have hs0 := Transfer.specCeilDiv_nonneg hf hc
  have hb := Transfer.specCeilDiv_bounds hf hc
  set s := Transfer.specCeilDiv fileSize chunkSize with hsdef
  have hcastS : (s.toNat : Int) = s := Int.toNat_of_nonneg hs0
  refine ⟨{ fileSize := fileSize, chunkSize := chunkSize, totalChunks := s,
            chunks := (List.range s.toNat).map (Transfer.chunkFor fileSize chunkSize) },
          ?_, rfl, ?_, ?_, ?_, ?_, ?_⟩
  · unfold Transfer.sendFileChunkedManifest
    rw [htc, if_neg (not_lt.mpr hs0)]
  · simp
  · intro i hi
    have hi' : i < (List.range s.toNat).length := by simpa using hi
    have hgi : ((List.range s.toNat).map (Transfer.chunkFor fileSize chunkSize))[i]
        = Transfer.chunkFor fileSize chunkSize i := by
      simp
    rw [hgi]
    constructor
    · rfl
    · show (i : Int) * chunkSize + (if (i : Int) * chunkSize + chunkSize > fileSize
        then fileSize - (i : Int) * chunkSize else chunkSize) ≤ fileSize
      by_cases hbig : (i : Int) * chunkSize + chunkSize > fileSize
      · rw [if_pos hbig]; omega
      · rw [if_neg hbig]; omega
  · have hlt : (s.toNat : Int) * chunkSize < fileSize + chunkSize := by
      rw [hcastS]
      have h2 := hb.2
      rw [mul_comm] at h2
      omega
    have hsum := Transfer.sum_chunk_sizes fileSize chunkSize hf hc s.toNat hlt
    have hmin : min fileSize ((s.toNat : Int) * chunkSize) = fileSize := by
      rw [hcastS]
      have h1 := hb.1
      rw [mul_comm] at h1
      exact min_eq_left h1
    show (((List.range s.toNat).map (Transfer.chunkFor fileSize chunkSize)).map
        Transfer.ChunkInfo.size).sum = fileSize
    rw [List.map_map]
    calc ((List.range s.toNat).map
            (Transfer.ChunkInfo.size ∘ Transfer.chunkFor fileSize chunkSize)).sum
        = ((List.range s.toNat).map
            fun i => (Transfer.chunkFor fileSize chunkSize i).size).sum := rfl
      _ = fileSize := by rw [hsum, hmin]
  · intro hpos
    have hpos2 : 0 < s := hpos
    have hpos' : 0 < s.toNat := by omega
    show ((List.range s.toNat).map (Transfer.chunkFor fileSize chunkSize)).getLast?.map
        Transfer.ChunkInfo.size = some (fileSize - (s - 1) * chunkSize)
    rw [Transfer.map_range_getLast _ _ hpos']
    have hcast1 : ((s.toNat - 1 : Nat) : Int) = s - 1 := by omega
    simp only [Transfer.chunkFor, Option.map_some]
    rw [hcast1]
    by_cases hbig : (s - 1) * chunkSize + chunkSize > fileSize
    · rw [if_pos hbig]
      rfl
    · rw [if_neg hbig]
      have h1 : fileSize ≤ s * chunkSize := by
        have h := hb.1
        rw [mul_comm] at h
        exact h
      have h2 : s * chunkSize ≤ fileSize := by nlinarith
      have h3 : chunkSize = fileSize - (s - 1) * chunkSize := by nlinarith
      rw [← h3]
      rfl
  · intro h0
    show s = 0
    subst h0
    by_contra hne
    have hs1 : 1 ≤ s := by omega
    have hcs : chunkSize * 1 ≤ chunkSize * s :=
      mul_le_mul_of_nonneg_left hs1 (le_of_lt hc)
    rw [mul_one] at hcs
    have h2 := hb.2
    omega

/-- C1 fails as literally stated ("for every FileSize ≥ 0 and every
ChunkSize > 0"): at `FileSize = ChunkSize = 2^63 − 1` the `int64` sum
`fileSize + chunkSize - 1` overflows to `-3`, the computed chunk count
is `0` instead of `ceil = 1`, the manifest is built with no chunks, and
the chunk sizes sum to `0 ≠ FileSize`. -/
theorem sendFileChunked_overflow_counterexample :
    (Transfer.sendFileChunkedManifest (2 ^ 63 - 1) (2 ^ 63 - 1)).map
        (fun m => (m.totalChunks, (m.chunks.map Transfer.ChunkInfo.size).sum))
      = some (0, 0) ∧
    Transfer.specCeilDiv (2 ^ 63 - 1) (2 ^ 63 - 1) = 1 ∧
    (2 ^ 63 - 1 : Int) ≠ 0 := by
  refine ⟨?_, ?_, ?_⟩ <;> decide

/-- Witness for `sendFileChunked_manifest_correct` at
`FileSize = 10`, `ChunkSize = 4`. -/
theorem sendFileChunked_manifest_correct_witness :
    ∃ m, Transfer.sendFileChunkedManifest 10 4 = some m ∧
      m.totalChunks = Transfer.specCeilDiv 10 4 ∧
      m.chunks.length = m.totalChunks.toNat ∧
      (∀ i : Nat, ∀ hi : i < m.chunks.length,
        m.chunks[i].offset = (i : Int) * 4 ∧
        m.chunks[i].offset + m.chunks[i].size ≤ 10) ∧
      (m.chunks.map Transfer.ChunkInfo.size).sum = 10 ∧
      (0 < m.totalChunks →
        m.chunks.getLast?.map Transfer.ChunkInfo.size
          = some (10 - (m.totalChunks - 1) * 4)) ∧
      ((10 : Int) = 0 → m.totalChunks = 0) :=
  sendFileChunked_manifest_correct 10 4 (by decide) (by decide) (by decide)

/-- C2 fails as stated: at `FileSize = 10,500,000`,
`ChunkSize = 1,048,576` the manifest does have 11 chunks and chunk 10
has `Offset = 10,485,760`, but its size is
`10,500,000 − 10·1,048,576 = 14,240`, not the claimed `104,448`. -/
theorem sendFileChunked_example_size_counterexample :
    (Transfer.sendFileChunkedManifest 10500000 1048576).map
        (fun m => m.chunks[10]?.map Transfer.ChunkInfo.size)
      = some (some 14240) ∧ (14240 : Int) ≠ 104448 := by
  constructor
  · decide
  · decide

/-- C2 (amended): for `FileSize = 10,500,000` and
`ChunkSize = 1,048,576`, the manifest has 11 chunks, and chunk 10
(0-indexed) has `Offset = 10,485,760` and `Size = 14,240`. -/
theorem sendFileChunked_example_10500000 :
    (Transfer.sendFileChunkedManifest 10500000 1048576).map
        (fun m => (m.totalChunks, m.chunks.length, m.chunks[10]?))
      = some (11, 11,
          some { index := 10, size := 14240, offset := 10485760,
                 completed := false }) := by
  decide

/-! ## Connection strategy cascade (claim C3) -/

/-- C3 fails as stated: with client isolation on, WiFi Direct enabled
and relay disabled, WiFi Direct is the last strategy attempted, yet
after both the direct and the WiFi Direct attempt fail the error
returned is the direct-TCP error, independently of the WiFi Direct
error (the source discards `wifiErr`).  The two conjuncts differ only
in the WiFi Direct error message and return the same result. -/
theorem connectToPeer_last_error_counterexample :
    Mesh.connectToPeer true true false (some "direct refused")
        (some "wifi adapter busy") none
      = .failed (.directError "direct refused") ∧
    Mesh.connectToPeer true true false (some "direct refused")
        (some "wifi peer gone") none
      = .failed (.directError "direct refused") :=
  ⟨rfl, rfl⟩

/-- C3 (amended): when every attempted strategy fails, `ConnectToPeer`
returns the relay error if relay is enabled (relay being the last
strategy attempted), and otherwise the direct-TCP error — even when a
failed WiFi Direct attempt came after the direct one. -/
theorem connectToPeer_failure_error (iso wifiEnabled relayEnabled : Bool)
    (d w r : String) :
    Mesh.connectToPeer iso wifiEnabled relayEnabled (some d) (some w) (some r)
      = .failed (if relayEnabled then .relayError r else .directError d) := by
  unfold Mesh.connectToPeer
  cases relayEnabled <;> cases iso <;> cases wifiEnabled <;> rfl

/-! ## Route selection (claims C6, C9) -/

/-- C9: `findBestRoute` reads `routes[0]` before any other check, so
the empty list is undefined behaviour (panic, modelled `none`), and
every non-empty list yields a result. -/
theorem findBestRoute_needs_nonempty :
    findBestRoute [] = none ∧
    ∀ (r : Mesh.Route) (rest : List Mesh.Route),
      (findBestRoute (r :: rest)).isSome := by
  refine ⟨rfl, ?_⟩
  intro r rest
  unfold findBestRoute
  cases h : (r :: rest).find? fun x => x.hopCount == 1 <;> simp [h]

/-- The quality pass of `findBestRoute`: folding
`if r.Quality > best.Quality then r else best` from `b` over `l` yields
the first element of `b :: l` with maximal quality: it splits `b :: l`
into a prefix of strictly lower quality, the result, and a suffix of no
higher quality. -/
lemma foldl_best_quality (l : List Mesh.Route) (b : Mesh.Route) :
    ∃ p s res,
      l.foldl (fun best r => if r.quality > best.quality then r else best) b
        = res ∧
      b :: l = p ++ res :: s ∧
      (∀ x ∈ b :: l, x.quality ≤ res.quality) ∧
      (∀ x ∈ p, x.quality < res.quality) := by
  induction l generalizing b with
  | nil => exact ⟨[], [], b, rfl, rfl, by simp, by simp⟩
  | cons r t ih =>
    by_cases hq : r.quality > b.quality
    · obtain ⟨p, s, res, hres, hsplit, hmax, hpre⟩ := ih r
      have hbres : b.quality < res.quality :=
        lt_of_lt_of_le hq (hmax r (List.mem_cons_self r t))
      refine ⟨b :: p, s, res, ?_, ?_, ?_, ?_⟩
      · simpa [List.foldl_cons, if_pos hq] using hres
      · simpa using congrArg (List.cons b) hsplit
      · intro x hx
        rcases List.mem_cons.mp hx with hxb | hxt
        · subst hxb; exact le_of_lt hbres
        · exact hmax x hxt
      · intro x hx
        rcases List.mem_cons.mp hx with hxb | hxp
        · subst hxb; exact hbres
        · exact hpre x hxp
    · obtain ⟨p, s, res, hres, hsplit, hmax, hpre⟩ := ih b
      have hfold :
          (r :: t).foldl (fun best x => if x.quality > best.quality then x else best) b
            = res := by
        simpa [List.foldl_cons, if_neg hq] using hres
      cases p with
      | nil =>
        have hres_b : res = b := by
          have := hsplit
          simp only [List.nil_append] at this
          exact (List.cons.injEq .. ▸ this).1.symm
        refine ⟨[], r :: t, res, hfold, ?_, ?_, by simp⟩
        · simp [hres_b]
        · intro x hx
          rcases List.mem_cons.mp hx with hxb | hxt
          · subst hxb; exact hmax _ (List.mem_cons_self _ _)
          · rcases List.mem_cons.mp hxt with hxr | hxt'
            · subst hxr
              exact le_trans (le_of_not_lt hq) (hmax b (List.mem_cons_self b _))
            · exact hmax x (List.mem_cons_of_mem b hxt')
      | cons p0 ptl =>
        have hp0 : p0 = b ∧ t = ptl ++ res :: s := by
          have := hsplit
          simp only [List.cons_append] at this
          exact ⟨((List.cons.injEq ..) ▸ this).1.symm, ((List.cons.injEq ..) ▸ this).2⟩
        have hbp : b.quality < res.quality := by
          have := hpre p0 (List.mem_cons_self p0 ptl)
          rwa [hp0.1] at this
        refine ⟨b :: r :: ptl, s, res, hfold, ?_, ?_, ?_⟩
        · simp [hp0.2]
        · intro x hx
          rcases List.mem_cons.mp hx with hxb | hxt
          · subst hxb; exact le_of_lt hbp
          · rcases List.mem_cons.mp hxt with hxr | hxt'
            · subst hxr; exact le_trans (le_of_not_lt hq) (le_of_lt hbp)
            · exact hmax x (List.mem_cons_of_mem b hxt')
        · intro x hx
          rcases List.mem_cons.mp hx with hxb | hxrp
          · subst hxb; exact hbp
          · rcases List.mem_cons.mp hxrp with hxr | hxp
            · subst hxr; exact lt_of_le_of_lt (le_of_not_lt hq) hbp
            · exact hpre x (hp0.1 ▸ List.mem_cons_of_mem p0 hxp)

/-- C6: `findBestRoute` returns the first route (in list order) with
`HopCount = 1` when one exists, regardless of quality; otherwise the
route with maximal `Quality`, the first-encountered winning ties.  In
particular on `[{Hop:3,Q:90},{Hop:1,Q:40},{Hop:2,Q:95}]` it returns the
`{Hop:1,Q:40}` route. -/
theorem findBestRoute_spec :
    (∀ (routes : List Mesh.Route) (b : Mesh.Route),
      findBestRoute routes = some b →
        ((∃ r ∈ routes, r.hopCount = 1) →
          ∃ p s, routes = p ++ b :: s ∧ b.hopCount = 1 ∧
            ∀ x ∈ p, x.hopCount ≠ 1) ∧
        ((∀ r ∈ routes, r.hopCount ≠ 1) →
          ∃ p s, routes = p ++ b :: s ∧
            (∀ x ∈ routes, x.quality ≤ b.quality) ∧
            ∀ x ∈ p, x.quality < b.quality)) ∧
    findBestRoute [routeHop3, routeHop1, routeHop2] = some routeHop1 := by
  constructor
  · intro routes b hb
    match routes with
    | [] => exact absurd hb (by simp [findBestRoute])
    | r0 :: rest =>
      unfold findBestRoute at hb
      cases hfind : (r0 :: rest).find? fun x => x.hopCount == 1 with
      | some r =>
        rw [hfind] at hb
        have hbr : b = r := by
          simpa using hb.symm
        subst hbr
        obtain ⟨hpb, as, bs, hsplit, hpre⟩ := List.find?_eq_some.mp hfind
        constructor
        · intro _
          refine ⟨as, bs, hsplit, by simpa using hpb, ?_⟩
          intro x hx
          have := hpre x hx
          simpa using this
        · intro hnone
          have hmem : b ∈ r0 :: rest := List.mem_of_find?_eq_some hfind
          exact absurd (by simpa using hpb) (hnone b hmem)
      | none =>
        rw [hfind] at hb
        have hball := List.find?_eq_none.mp hfind
        have hbr : b = (r0 :: rest).foldl
            (fun best x => if x.quality > best.quality then x else best) r0 := by
          simpa using hb.symm
        constructor
        · intro ⟨r, hrmem, hr1⟩
          exact absurd (by simpa using hr1) (by simpa using hball r hrmem)
        · intro _
          obtain ⟨p, s, res, hres, hsplit, hmax, hpre⟩ :=
            foldl_best_quality ((r0 :: rest).tail) ((r0 :: rest).head (by simp))
          simp only [List.tail_cons, List.head_cons] at hres hsplit hmax hpre
          have hfold_eq : b = res := by
            rw [hbr, List.foldl_cons]
            have : (if r0.quality > r0.quality then r0 else r0) = r0 := by
              simp
            rw [this]
            exact hres
          subst hfold_eq
          exact ⟨p, s, hsplit, fun x hx => hmax x hx, hpre⟩
  · decide

/-- Witness for the universal part of `findBestRoute_spec`, at the
spec's three-route example. -/
theorem findBestRoute_spec_witness :
    ∃ p s, [routeHop3, routeHop1, routeHop2] = p ++ routeHop1 :: s ∧
      routeHop1.hopCount = 1 ∧ ∀ x ∈ p, x.hopCount ≠ 1 :=
  (findBestRoute_spec.1 [routeHop3, routeHop1, routeHop2] routeHop1
      (by decide)).1 ⟨routeHop1, by decide, by decide⟩

/-! ## Peer resolution (claim C5) -/

namespace Mesh

lemma lookup_of_mem_nodup {peers : List (String × Peer)} {q : String} {p : Peer}
    (hnd : (peers.map Prod.fst).Nodup) (hmem : (q, p) ∈ peers) :
    peers.lookup q = some p := by
  induction peers with
  | nil => cases hmem
  | cons kv rest ih =>
    obtain ⟨k, v⟩ := kv
    rw [List.map_cons, List.nodup_cons] at hnd
    rcases List.mem_cons.mp hmem with heq | hrest
    · obtain ⟨rfl, rfl⟩ := Prod.mk.injEq .. ▸ heq
      simp [List.lookup_cons]
    · have hkq : k ≠ q := by
        intro hkq
        subst hkq
        exact hnd.1 (List.mem_map.mpr ⟨(k, p), hrest, rfl⟩)
      rw [List.lookup_cons]
      have : (q == k) = false := beq_false_of_ne (Ne.symm hkq)
      rw [this]
      exact ih hnd.2 hrest

lemma lookup_eq_none_of_no_key {peers : List (String × Peer)} {q : String}
    (h : ∀ pr ∈ peers, pr.1 ≠ q) :
    peers.lookup q = none := by
  induction peers with
  | nil => rfl
  | cons kv rest ih =>
    obtain ⟨k, v⟩ := kv
    rw [List.lookup_cons]
    have hk : k ≠ q := h (k, v) (List.mem_cons_self _ _)
    have : (q == k) = false := beq_false_of_ne (Ne.symm hk)
    rw [this]
    exact ih fun pr hpr => h pr (List.mem_cons_of_mem _ hpr)

end Mesh

/-- C5: resolution order of `FindPeerByIdOrName` over any peer
directory (association list with distinct IDs) and query: (1) an exact
ID match wins — even when a different peer's name equals the query;
(2) otherwise a case-insensitively matching ID; (3) otherwise an exact
name match, returned immediately even if other names collide
case-insensitively; (4) otherwise a case-insensitive name match, which
must be unique: two or more such matches give `AmbiguousPeer`, none at
all gives `PeerNotFound`. -/
theorem findPeerByIdOrName_resolution
    (peers : List (String × Mesh.Peer)) (q : String)
    (hnd : (peers.map Prod.fst).Nodup) :
    (∀ p : Mesh.Peer, (q, p) ∈ peers →
        Mesh.findPeerByIdOrName peers q = .ok p) ∧
    ((∀ pr ∈ peers, pr.1 ≠ q) →
      (∃ pr ∈ peers, Mesh.eqFold pr.1 q) →
      ∃ pr ∈ peers, Mesh.eqFold pr.1 q ∧
        Mesh.findPeerByIdOrName peers q = .ok pr.2) ∧
    ((∀ pr ∈ peers, pr.1 ≠ q ∧ ¬ Mesh.eqFold pr.1 q) →
      (∃ pr ∈ peers, pr.2.name = q) →
      ∃ pr ∈ peers, pr.2.name = q ∧
        Mesh.findPeerByIdOrName peers q = .ok pr.2) ∧
    ((∀ pr ∈ peers, pr.1 ≠ q ∧ ¬ Mesh.eqFold pr.1 q ∧ pr.2.name ≠ q) →
      ((peers.countP fun pr => Mesh.eqFold pr.2.name q) = 1 →
        ∃ pr ∈ peers, Mesh.eqFold pr.2.name q ∧
          Mesh.findPeerByIdOrName peers q = .ok pr.2) ∧
      (2 ≤ (peers.countP fun pr => Mesh.eqFold pr.2.name q) →
        Mesh.findPeerByIdOrName peers q = .error (.ambiguousPeer q)) ∧
      ((peers.countP fun pr => Mesh.eqFold pr.2.name q) = 0 →
        Mesh.findPeerByIdOrName peers q = .error (.peerNotFound q))) := by
  refine ⟨?_, ?_, ?_, ?_⟩
  · intro p hmem
    unfold Mesh.findPeerByIdOrName
    rw [Mesh.lookup_of_mem_nodup hnd hmem]
  · intro hne hex
    have hlk := Mesh.lookup_eq_none_of_no_key hne
    cases hf : peers.find? fun pr => Mesh.eqFold pr.1 q with
    | none =>
      exfalso
      obtain ⟨pr, hpr, hfold⟩ := hex
      exact List.find?_eq_none.mp hf pr hpr hfold
    | some pr =>
      have hp := List.find?_some hf
      refine ⟨pr, List.mem_of_find?_eq_some hf, hp, ?_⟩
      unfold Mesh.findPeerByIdOrName
      rw [hlk, hf]
  · intro hni hex
    have hlk := Mesh.lookup_eq_none_of_no_key fun pr hpr => (hni pr hpr).1
    have hf1 : (peers.find? fun pr => Mesh.eqFold pr.1 q) = none :=
      List.find?_eq_none.mpr fun pr hpr => (hni pr hpr).2
    cases hf : peers.find? fun pr => pr.2.name == q with
    | none =>
      exfalso
      obtain ⟨pr, hpr, hname⟩ := hex
      exact List.find?_eq_none.mp hf pr hpr (beq_iff_eq.mpr hname)
    | some pr =>
      have hp := List.find?_some hf
      refine ⟨pr, List.mem_of_find?_eq_some hf, beq_iff_eq.mp hp, ?_⟩
      unfold Mesh.findPeerByIdOrName
      rw [hlk, hf1, hf]
  · intro hall
    have hlk := Mesh.lookup_eq_none_of_no_key fun pr hpr => (hall pr hpr).1
    have hf1 : (peers.find? fun pr => Mesh.eqFold pr.1 q) = none :=
      List.find?_eq_none.mpr fun pr hpr => (hall pr hpr).2.1
    have hf2 : (peers.find? fun pr => pr.2.name == q) = none :=
      List.find?_eq_none.mpr fun pr hpr => by
        have := (hall pr hpr).2.2
        simpa using this
    have hcnt : (peers.countP fun pr => Mesh.eqFold pr.2.name q)
        = (peers.filter fun pr => Mesh.eqFold pr.2.name q).length :=
      List.countP_eq_length_filter _ peers
    refine ⟨?_, ?_, ?_⟩
    · intro hone
      rw [hcnt] at hone
      cases hfil : peers.filter fun pr => Mesh.eqFold pr.2.name q with
      | nil => rw [hfil] at hone; simp at hone
      | cons a tl =>
        cases tl with
        | nil =>
          have hamem := List.mem_filter.mp
            (hfil ▸ List.mem_cons_self a ([] : List (String × Mesh.Peer)))
          refine ⟨a, hamem.1, hamem.2, ?_⟩
          unfold Mesh.findPeerByIdOrName
          rw [hlk, hf1, hf2, hfil]
        | cons b tl2 => rw [hfil] at hone; simp at hone
    · intro htwo
      rw [hcnt] at htwo
      cases hfil : peers.filter fun pr => Mesh.eqFold pr.2.name q with
      | nil => rw [hfil] at htwo; simp at htwo
      | cons a tl =>
        cases tl with
        | nil => rw [hfil] at htwo; simp at htwo
        | cons b tl2 =>
          unfold Mesh.findPeerByIdOrName
          rw [hlk, hf1, hf2, hfil]
    · intro hzero
      rw [hcnt] at hzero
      cases hfil : peers.filter fun pr => Mesh.eqFold pr.2.name q with
      | nil =>
        unfold Mesh.findPeerByIdOrName
        rw [hlk, hf1, hf2, hfil]
      | cons a tl => rw [hfil] at hzero; simp at hzero

/-- Witness for `findPeerByIdOrName_resolution`: the exact ID match
`"alice"` wins although peer `bob`'s name is also `"alice"`. -/
theorem findPeerByIdOrName_resolution_witness :
    Mesh.findPeerByIdOrName demoDirectory "alice" = .ok peerAlice :=
  (findPeerByIdOrName_resolution demoDirectory "alice" (by decide)).1
    peerAlice (by decide)

/-! ## TCP framing (claims C4, C10) -/

namespace P2P

lemma runPeerLoop_nil : runPeerLoop [] = ([], .eof) := by
  rw [runPeerLoop]
  simp

lemma runPeerLoop_cons4 (b0 b1 b2 b3 : Nat) (rest : List Nat) :
    runPeerLoop (b0 :: b1 :: b2 :: b3 :: rest) =
      if beLen b0 b1 b2 b3 = 0 then runPeerLoop rest
      else if beLen b0 b1 b2 b3 > maxMessageSize then ([], .oversize)
      else if rest.length < beLen b0 b1 b2 b3 then ([], .shortRead)
      else ((rest.take (beLen b0 b1 b2 b3)) :: (runPeerLoop (rest.drop (beLen b0 b1 b2 b3))).1,
            (runPeerLoop (rest.drop (beLen b0 b1 b2 b3))).2) := by
  rw [runPeerLoop]
  split_ifs <;> rfl

lemma beLen_be32 (l : Nat) (hl : l < 2 ^ 32) :
    beLen (l / 2 ^ 24 % 2 ^ 8) (l / 2 ^ 16 % 2 ^ 8) (l / 2 ^ 8 % 2 ^ 8) (l % 2 ^ 8)
      = l := by
  unfold beLen
  omega

lemma be32_append (l : Nat) (x : List Nat) :
    be32 l ++ x
      = l / 2 ^ 24 % 2 ^ 8 :: l / 2 ^ 16 % 2 ^ 8 :: l / 2 ^ 8 % 2 ^ 8 :: l % 2 ^ 8 :: x := by
  rfl

end P2P

/-- C4: frame-size guard of `handlePeer`.  A declared length above
`maxMessageSize` (100 MiB) terminates the connection with no frame
processed; a declared length of 0 — the only value of
`int(binary.BigEndian.Uint32(...))` that is `≤ 0` on a 64-bit
platform, a negative value being unrepresentable — is skipped and the
reader continues with the next frame unchanged. -/
theorem handlePeer_frame_guard :
    (∀ (l : Nat) (rest : List Nat), P2P.maxMessageSize < l → l < 2 ^ 32 →
      P2P.runPeerLoop (P2P.be32 l ++ rest) = ([], .oversize)) ∧
    (∀ rest : List Nat,
      P2P.runPeerLoop (P2P.be32 0 ++ rest) = P2P.runPeerLoop rest) := by
  constructor
  · intro l rest hmax hl
    have hpos : 0 < P2P.maxMessageSize := by decide
    rw [P2P.be32_append, P2P.runPeerLoop_cons4, P2P.beLen_be32 l hl]
    rw [if_neg (by omega), if_pos hmax]
  · intro rest
    rw [P2P.be32_append, P2P.runPeerLoop_cons4]
    have h0 : P2P.beLen (0 / 2 ^ 24 % 2 ^ 8) (0 / 2 ^ 16 % 2 ^ 8)
        (0 / 2 ^ 8 % 2 ^ 8) (0 % 2 ^ 8) = 0 := by decide
    rw [h0, if_pos rfl]

/-- Witness for `handlePeer_frame_guard`: a declared length of
`maxMessageSize + 1` closes the connection; a zero length on front of
the same bytes is skipped. -/
theorem handlePeer_frame_guard_witness :
    P2P.runPeerLoop (P2P.be32 (P2P.maxMessageSize + 1) ++ [7, 7]) = ([], .oversize) ∧
    P2P.runPeerLoop (P2P.be32 0 ++ [7, 7]) = P2P.runPeerLoop [7, 7] :=
  ⟨handlePeer_frame_guard.1 (P2P.maxMessageSize + 1) [7, 7] (by decide) (by decide),
   handlePeer_frame_guard.2 [7, 7]⟩

/-- The stream of several packed messages parses back to exactly those
payloads, ending at a clean EOF. -/
lemma runPeerLoop_packed (msgs : List (List Nat))
    (hm : ∀ m ∈ msgs, 1 ≤ m.length ∧ m.length ≤ P2P.maxMessageSize) :
    P2P.runPeerLoop ((msgs.map P2P.packMessage).flatten) = (msgs, .eof) := by
  induction msgs with
  | nil => simpa using P2P.runPeerLoop_nil
  | cons m rest ih =>
    obtain ⟨hm1, hm2⟩ := hm m (List.mem_cons_self m rest)
    have hlt : m.length < 2 ^ 32 := by
      have : P2P.maxMessageSize < 2 ^ 32 := by decide
      omega
    have hmod : m.length % 2 ^ 32 = m.length := Nat.mod_eq_of_lt hlt
    have hstream : ((m :: rest).map P2P.packMessage).flatten
        = P2P.be32 m.length ++ (m ++ (rest.map P2P.packMessage).flatten) := by
      show P2P.packMessage m ++ (rest.map P2P.packMessage).flatten
        = P2P.be32 m.length ++ (m ++ (rest.map P2P.packMessage).flatten)
      unfold P2P.packMessage
      rw [hmod, List.append_assoc]
    rw [hstream, P2P.be32_append, P2P.runPeerLoop_cons4,
      P2P.beLen_be32 m.length hlt]
    rw [if_neg (by omega), if_neg (by omega),
      if_neg (by rw [List.length_append]; omega),
      List.take_left' rfl, List.drop_left' rfl,
      ih fun x hx => hm x (List.mem_cons_of_mem m hx)]

/-- C10: `packMessage` is a 4-byte big-endian length prefix followed by
the payload, and `handlePeer`'s reader inverts it: a single packed
payload of length 1..100 MiB is recovered exactly, and a concatenation
of packed payloads parses back to exactly those payloads in order. -/
theorem packMessage_roundtrip :
    (∀ m : List Nat, 1 ≤ m.length → m.length ≤ P2P.maxMessageSize →
      P2P.packMessage m = P2P.be32 m.length ++ m ∧
      P2P.runPeerLoop (P2P.packMessage m) = ([m], .eof)) ∧
    (∀ msgs : List (List Nat),
      (∀ m ∈ msgs, 1 ≤ m.length ∧ m.length ≤ P2P.maxMessageSize) →
      P2P.runPeerLoop ((msgs.map P2P.packMessage).flatten) = (msgs, .eof)) := by
  refine ⟨?_, fun msgs hm => runPeerLoop_packed msgs hm⟩
  intro m h1 h2
  have hlt : m.length < 2 ^ 32 := by
    have : P2P.maxMessageSize < 2 ^ 32 := by decide
    omega
  constructor
  · unfold P2P.packMessage
    rw [Nat.mod_eq_of_lt hlt]
  · have h := runPeerLoop_packed [m] (by simpa using ⟨h1, h2⟩)
    simpa using h

/-- Witness for `packMessage_roundtrip`: the payload `[42, 1, 255]`
alone and the concatenation of `[42, 1, 255]` and `[9]` both round-trip
through the framing. -/
theorem packMessage_roundtrip_witness :
    P2P.runPeerLoop (P2P.packMessage [42, 1, 255]) = ([[42, 1, 255]], .eof) ∧
    P2P.runPeerLoop (([[42, 1, 255], [9]].map P2P.packMessage).flatten)
      = ([[42, 1, 255], [9]], .eof) :=
  ⟨(packMessage_roundtrip.1 [42, 1, 255] (by decide) (by decide)).2,
   packMessage_roundtrip.2 [[42, 1, 255], [9]] (by decide)⟩

/-! ## Discovery aggregation (claim C7) -/

namespace P2P

/-- Structural description of the cache-inclusion loop: the result is
the live results followed by some cached entries, each marked
`signalStrength = 0` and none sharing an ID with a live entry, and the
loop never introduces a duplicate ID. -/
lemma includeCached_spec (cached : List PeerInfo) :
    ∀ results : List PeerInfo,
      ∃ extra, includeCached results cached = results ++ extra ∧
        (∀ y ∈ extra, y.signalStrength = 0 ∧
          ∃ c ∈ cached, y = { c with signalStrength := 0 } ∧
            ∀ x ∈ results, x.id ≠ c.id) ∧
        ((results.map PeerInfo.id).Nodup →
          (((results ++ extra).map PeerInfo.id)).Nodup) := by
  induction cached with
  | nil =>
    intro results
    exact ⟨[], by simp [includeCached], by simp, by simpa using id⟩
  | cons p rest ih =>
    intro results
    by_cases hdup : results.any fun e => e.id == p.id
    · obtain ⟨extra, heq, hprops, hnd⟩ := ih results
      refine ⟨extra, ?_, ?_, hnd⟩
      · rw [includeCached, if_pos hdup]
        exact heq
      · intro y hy
        obtain ⟨hsig, c, hc, hyc, hids⟩ := hprops y hy
        exact ⟨hsig, c, List.mem_cons_of_mem p hc, hyc, hids⟩
    · have hnone : ∀ x ∈ results, x.id ≠ p.id := by
        intro x hx
        have := List.any_eq_false.mp (Bool.not_eq_true _ ▸ hdup) x hx
        simpa using this
      obtain ⟨extra, heq, hprops, hnd⟩ := ih (results ++ [{ p with signalStrength := 0 }])
      refine ⟨{ p with signalStrength := 0 } :: extra, ?_, ?_, ?_⟩
      · rw [includeCached, if_neg hdup, heq, List.append_assoc]
        rfl
      · intro y hy
        rcases List.mem_cons.mp hy with hyp | hyextra
        · subst hyp
          exact ⟨rfl, p, List.mem_cons_self p rest, rfl, hnone⟩
        · obtain ⟨hsig, c, hc, hyc, hids⟩ := hprops y hyextra
          refine ⟨hsig, c, List.mem_cons_of_mem p hc, hyc, ?_⟩
          intro x hx
          exact hids x (List.mem_append_left _ hx)
      · intro hres
        have hmid : ((results ++ [{ p with signalStrength := 0 }]).map
            PeerInfo.id).Nodup := by
          rw [List.map_append]
          rw [List.nodup_append]
          refine ⟨hres, by simp, ?_⟩
          intro a ha hb
          simp only [List.map_cons, List.map_nil, List.mem_singleton] at hb
          subst hb
          obtain ⟨x, hx, hxa⟩ := List.mem_map.mp ha
          exact hnone x hx hxa
        have := hnd hmid
        rw [List.append_assoc] at this
        simpa using this

lemma liveResults_ids (arrivals : List Transport) :
    (liveResults arrivals).map PeerInfo.id = arrivals.map transportId := by
  induction arrivals with
  | nil => rfl
  | cons t rest ih =>
    show ((scanResult t ++ liveResults rest).map PeerInfo.id)
      = transportId t :: rest.map transportId
    rw [List.map_append, ih]
    cases t <;> rfl

lemma liveResults_ids_nodup {arrivals : List Transport}
    (hnd : arrivals.Nodup) :
    ((liveResults arrivals).map PeerInfo.id).Nodup := by
  rw [liveResults_ids]
  exact hnd.map fun a b hab => by
    cases a <;> cases b <;> first | rfl | (exfalso; exact absurd hab (by decide))

end P2P

/-- C7: for every scan with cache inclusion requested — any set of
completing transports in any completion order, any cache contents —
the merged result of `ScanForPeersWithOptions` has pairwise-distinct
IDs, every live result is kept (so a live result always displaces a
cached entry with the same ID), and every other entry is a cached
entry marked `SignalStrength = 0` whose ID matches no live result. -/
theorem scanMerged_dedup (arrivals : List P2P.Transport)
    (cached : List P2P.PeerInfo) (hnd : arrivals.Nodup) :
    ((P2P.scanMerged arrivals cached true).map P2P.PeerInfo.id).Nodup ∧
    (∀ x ∈ P2P.liveResults arrivals, x ∈ P2P.scanMerged arrivals cached true) ∧
    (∀ y ∈ P2P.scanMerged arrivals cached true,
      y ∈ P2P.liveResults arrivals ∨
        (y.signalStrength = 0 ∧ ∃ c ∈ cached,
          y = { c with signalStrength := 0 } ∧
          ∀ x ∈ P2P.liveResults arrivals, x.id ≠ c.id)) := by
  obtain ⟨extra, heq, hprops, hnodup⟩ :=
    P2P.includeCached_spec cached (P2P.liveResults arrivals)
  have hmerged : P2P.scanMerged arrivals cached true
      = P2P.liveResults arrivals ++ extra := by
    rw [P2P.scanMerged, if_pos rfl]
    exact heq
  refine ⟨?_, ?_, ?_⟩
  · rw [hmerged]
    exact hnodup (P2P.liveResults_ids_nodup hnd)
  · intro x hx
    rw [hmerged]
    exact List.mem_append_left _ hx
  · intro y hy
    rw [hmerged] at hy
    rcases List.mem_append.mp hy with hlive | hextra
    · exact Or.inl hlive
    · exact Or.inr (hprops y hextra)

/-- Witness for `scanMerged_dedup`: TCP and WiFi Direct complete (in
that order) and the cache holds one stale peer. -/
theorem scanMerged_dedup_witness :
    ((P2P.scanMerged [.tcp, .wifiDirect] [cachedPhone] true).map
        P2P.PeerInfo.id).Nodup ∧
    (∀ x ∈ P2P.liveResults [.tcp, .wifiDirect],
      x ∈ P2P.scanMerged [.tcp, .wifiDirect] [cachedPhone] true) ∧
    (∀ y ∈ P2P.scanMerged [.tcp, .wifiDirect] [cachedPhone] true,
      y ∈ P2P.liveResults [.tcp, .wifiDirect] ∨
        (y.signalStrength = 0 ∧ ∃ c ∈ [cachedPhone],
          y = { c with signalStrength := 0 } ∧
          ∀ x ∈ P2P.liveResults [.tcp, .wifiDirect], x.id ≠ c.id)) :=
  scanMerged_dedup [.tcp, .wifiDirect] [cachedPhone] (by decide)
